import Mathlib

/-!
Shallow embedding of the size-constrained JPEG re-encoding search of the
PDFTOJPGCURSOR repository.

Embedded code:
* `src/tools/uscis-compress.mjs` — the CLI batch tool: `parseArgs`,
  `clamp01`, `normalizeSubsample`, `parseSizeToBytes`, `encodeAtQuality`
  and `compressWithTarget` (the variant loop with its bounded binary
  search).
* `src/unnamed/part_000` — the browser tool: `clamp` and
  `encodeCanvasFitUnder`.

Conventions: JavaScript numbers are modelled as exact rationals (`ℚ`) and
byte counts as `Nat`; `NaN` from `Number(string)` is modelled as `none`.
The external JPEG encoder (sharp, resp. `canvas.toBlob`) is an abstract
function parameter; every search function additionally returns the list of
encode calls it performed, so that properties about "every encode attempt"
can be stated.  Fallible code returns `Except String`.
-/

/-- Chroma subsampling mode (`--subsample`): `4:4:4` or `4:2:0`. -/
inductive Subsample where
  | s444
  | s420
deriving DecidableEq, Repr

/-- One encoder configuration variant, as listed in the variant table of
`compressWithTarget` (lines 256-261). -/
structure Variant where
  subsample : Subsample
  progressive : Bool
  stripMetadata : Bool
deriving DecidableEq, Repr

/-- JavaScript truthiness of a nullable byte count: `null` and `0` are
falsy (`if (!target)`). -/
def jsFalsyN : Option Nat → Bool
  | none => true
  | some 0 => true
  | some (_ + 1) => false

/-- JavaScript `String.prototype.trim` on a character list. -/
def jsTrim (l : List Char) : List Char :=
  ((l.dropWhile Char.isWhitespace).reverse.dropWhile Char.isWhitespace).reverse

/-- JavaScript `String.prototype.toLowerCase` (basic-latin, as used here). -/
def jsToLower (l : List Char) : List Char := l.map Char.toLower

/-- Big-endian decimal valuation of a digit string, as `Number` computes it
on a string matching `^\d+$`. -/
def decNat (l : List Char) : Nat :=
  l.foldl (fun n c => 10 * n + (c.toNat - 48)) 0

/-- Are all characters decimal digits? -/
def allDigits (l : List Char) : Bool := l.all Char.isDigit

/-- Value of a decimal literal of the forms `\d+`, `\d+\.\d*` or `\.\d+`
(the forms `Number` accepts that occur in this tool's inputs). -/
def parseDecCore (l : List Char) : Option ℚ :=
  let ip := l.takeWhile Char.isDigit
  match l.dropWhile Char.isDigit with
  | [] => if ip.isEmpty then none else some (decNat ip)
  | '.' :: fs =>
    if allDigits fs && !(ip.isEmpty && fs.isEmpty) then
      some ((decNat ip : ℚ) + (decNat fs : ℚ) / 10 ^ fs.length)
    else none
  | _ => none

/-- Model of the JavaScript `Number(string)` builtin on decimal literals:
trimmed; empty is `0`; optional sign; otherwise `none` (NaN). -/
def jsNumber (s : String) : Option ℚ :=
  match jsTrim s.data with
  | [] => some 0
  | '-' :: r => (parseDecCore r).map fun q => -q
  | '+' :: r => parseDecCore r
  | l => parseDecCore l

/-- The size suffix of `parseSizeToBytes`: `kb`, `mb` or `gb`. -/
inductive SizeUnit where
  | kb
  | mb
  | gb
deriving DecidableEq, Repr

/-- Multiplier of a size suffix. -/
def multOf : SizeUnit → Nat
  | .kb => 1024
  | .mb => 1024 * 1024
  | .gb => 1024 * 1024 * 1024

/-- Recognize the two-character unit suffix. -/
def unitOf : List Char → Option SizeUnit
  | ['k', 'b'] => some .kb
  | ['m', 'b'] => some .mb
  | ['g', 'b'] => some .gb
  | _ => none

/-- The numeric part `\d+(\.\d+)?` of the size regex. -/
def parseNumUnit (l : List Char) : Option ℚ :=
  let ip := l.takeWhile Char.isDigit
  match l.dropWhile Char.isDigit with
  | [] => if ip.isEmpty then none else some (decNat ip)
  | '.' :: fs =>
    if !ip.isEmpty && !fs.isEmpty && allDigits fs then
      some ((decNat ip : ℚ) + (decNat fs : ℚ) / 10 ^ fs.length)
    else none
  | _ => none

/-- Match `^(\d+(\.\d+)?)(kb|mb|gb)$` against an already-lowercased string,
returning the numeric value and the unit multiplier. -/
def sizeMatch (l : List Char) : Option (ℚ × Nat) :=
  let p := l.splitAt (l.length - 2)
  match unitOf p.2 with
  | some u => (parseNumUnit p.1).map fun q => (q, multOf u)
  | none => none

/-- Body of `parseSizeToBytes` after `String(s).trim().toLowerCase()` (lines
150-159): bare digits are bytes; `<num><unit>` is floored after
multiplication; anything else dies. -/
def parseSizeCore (l : List Char) : Except String Nat :=
  if !l.isEmpty && allDigits l then .ok (decNat l)
  else
    match sizeMatch l with
    | some (q, mult) => .ok (Int.toNat ⌊q * (mult : ℚ)⌋)
    | none => .error "Invalid --max-size"

/-- Embedding of `parseSizeToBytes` (lines 150-159). -/
def parseSizeToBytes (s : String) : Except String Nat :=
  parseSizeCore (jsToLower (jsTrim s.data))

/-- Arguments as accumulated by the option loop of `parseArgs` (lines
43-128), before the final normalization; `none` in a fidelity field models
`NaN` from `Number`. -/
structure RawArgs where
  compress : Bool := true
  quality : Option ℚ := some (85 / 100)
  maxSize : Option String := none
  fitUnder : Option String := none
  preserveResolution : Bool := true
  subsample : String := "4:4:4"
  progressive : Bool := false
  stripMetadata : Bool := true
  minQuality : Option ℚ := some (55 / 100)
  outDir : String := "out"
  suffix : String := "-uscis"
  overwrite : Bool := false
  recursive : Bool := false
  help : Bool := false
  inputs : List String := []
deriving DecidableEq, Repr

/-- Fully parsed CLI arguments, after the normalization tail of `parseArgs`
(lines 130-135). -/
structure Args where
  compress : Bool := true
  quality : ℚ := 85 / 100
  maxSize : Option String := none
  fitUnder : Option String := none
  preserveResolution : Bool := true
  subsample : Subsample := .s444
  progressive : Bool := false
  stripMetadata : Bool := true
  minQuality : ℚ := 55 / 100
  outDir : String := "out"
  suffix : String := "-uscis"
  overwrite : Bool := false
  recursive : Bool := false
  help : Bool := false
  inputs : List String := []
  maxSizeBytes : Option Nat := none
deriving DecidableEq, Repr

/-- Embedding of `clamp01` (lines 138-141): dies on a non-finite value, else clamps into
`[0.1, 1.0]`. -/
def clamp01 : Option ℚ → Except String ℚ
  | none => .error "Invalid --quality (must be number 0.1..1.0)"
  | some x => .ok (max (1 / 10) (min 1 x))

/-- The clamp of `clamp01` on a value that is known finite (as when
`compressWithTarget` re-clamps the already-parsed fidelities, lines
263-264). -/
def clampQ (x : ℚ) : ℚ := max (1 / 10) (min 1 x)

/-- Embedding of `normalizeSubsample` (lines 143-148). -/
def normalizeSubsample (s : String) : Except String Subsample :=
  let v := String.mk (jsTrim s.data)
  if v = "4:4:4" || v = "444" then .ok .s444
  else if v = "4:2:0" || v = "420" then .ok .s420
  else .error "Invalid --subsample"

/-- What the `parseArgs` switch (lines 76-127) does for one `--key`:
set a flag, consume a value, or die on an unknown option. -/
inductive OptAction where
  | flag (f : RawArgs → RawArgs)
  | val (f : String → RawArgs → RawArgs)
  | unknown

/-- The `switch (k)` of `parseArgs`. -/
def optAction : String → OptAction
  | "--help" => .flag fun a => { a with help := true }
  | "--compress" => .flag fun a => { a with compress := true }
  | "--no-compress" => .flag fun a => { a with compress := false }
  | "--quality" => .val fun v a => { a with quality := jsNumber v }
  | "--max-size" => .val fun v a => { a with maxSize := some v }
  | "--fit-under" => .val fun v a => { a with fitUnder := some v }
  | "--preserve-resolution" => .flag fun a => { a with preserveResolution := true }
  | "--subsample" => .val fun v a => { a with subsample := v }
  | "--progressive" => .flag fun a => { a with progressive := true }
  | "--strip-metadata" => .flag fun a => { a with stripMetadata := true }
  | "--keep-metadata" => .flag fun a => { a with stripMetadata := false }
  | "--min-quality" => .val fun v a => { a with minQuality := jsNumber v }
  | "--out-dir" => .val fun v a => { a with outDir := v }
  | "--suffix" => .val fun v a => { a with suffix := v }
  | "--overwrite" => .flag fun a => { a with overwrite := true }
  | "--recursive" => .flag fun a => { a with recursive := true }
  | _ => .unknown

/-- JavaScript `a.split("=")` (full split on `=`; `split("=", 2)` is its
first two groups). -/
def splitOnEq : List Char → List (List Char)
  | [] => [[]]
  | c :: cs =>
    match splitOnEq cs with
    | [] => [[]]
    | g :: gs => if c = '=' then [] :: g :: gs else (c :: g) :: gs

/-- JavaScript `a.startsWith("--")`. -/
def startsDashDash : List Char → Bool
  | '-' :: '-' :: _ => true
  | _ => false

/-- The argument loop of `parseArgs` (lines 61-128): non-options are
inputs; `--k=v` uses the inline value; a value-taking option without an
inline value consumes the next argument or dies. -/
def parseArgsLoop : List String → RawArgs → Except String RawArgs
  | [], acc => .ok acc
  | a :: rest, acc =>
    if startsDashDash a.data = false then
      parseArgsLoop rest { acc with inputs := acc.inputs ++ [a] }
    else
      let parts := splitOnEq a.data
      let k := String.mk (parts.headD [])
      match optAction k with
      | .flag f => parseArgsLoop rest (f acc)
      | .val f =>
        match parts[1]? with
        | some v => parseArgsLoop rest (f (String.mk v) acc)
        | none =>
          match rest with
          | [] => .error ("Missing value for " ++ k)
          | v :: rs => parseArgsLoop rs (f v acc)
      | .unknown => .error ("Unknown option: " ++ k)

/-- Resolution of `const size = fitUnder ?? maxSize;`
`maxSizeBytes = size ? parseSizeToBytes(size) : null` (lines 133-134):
an absent or empty size expression is no constraint. -/
def sizeResolve : Option String → Except String (Option Nat)
  | none => .ok none
  | some s => if s = "" then .ok none else (parseSizeToBytes s).map some

/-- The normalization tail of `parseArgs` (lines 130-135): clamp both
fidelities, normalize subsampling, resolve and parse the size expression. -/
def finalizeArgs (raw : RawArgs) : Except String Args :=
  match clamp01 raw.quality with
  | .error e => .error e
  | .ok q =>
    match clamp01 raw.minQuality with
    | .error e => .error e
    | .ok mq =>
      match normalizeSubsample raw.subsample with
      | .error e => .error e
      | .ok sub =>
        match sizeResolve (raw.fitUnder.or raw.maxSize) with
        | .error e => .error e
        | .ok msb =>
          .ok { compress := raw.compress, quality := q, maxSize := raw.maxSize,
                fitUnder := raw.fitUnder, preserveResolution := raw.preserveResolution,
                subsample := sub, progressive := raw.progressive,
                stripMetadata := raw.stripMetadata, minQuality := mq,
                outDir := raw.outDir, suffix := raw.suffix, overwrite := raw.overwrite,
                recursive := raw.recursive, help := raw.help, inputs := raw.inputs,
                maxSizeBytes := msb }

/-- Embedding of `parseArgs` (lines 43-136). -/
def parseArgs (argv : List String) : Except String Args :=
  match parseArgsLoop argv {} with
  | .error e => .error e
  | .ok raw => finalizeArgs raw


/-- One call to the external encoder (sharp's JPEG pipeline as configured
by `jpegOpts`): the raw fidelity value and the effective variant flags.
`encodeAtQuality` passes exactly these to the encoder. -/
structure EncCall where
  quality : ℚ
  variant : Variant
deriving DecidableEq, Repr

/-- JavaScript `Math.round`. -/
def jsRound (x : ℚ) : ℤ := ⌊x + 1 / 2⌋

/-- The `quality` field of `jpegOpts` (lines 218-226):
`Math.round(quality01 * 100)`. -/
def jpegOptsQuality (quality01 : ℚ) : ℤ := jsRound (quality01 * 100)

/-- Embedding of `encodeAtQuality` (lines 228-237) with the sharp pipeline abstracted as
`E`: resolves the effective variant flags (`overrides?.x ?? args.x`; every
caller in the target path passes a complete variant record) and invokes the
encoder.  Returns the buffer and the call that was made. -/
def encodeAtQuality {β : Type} (E : EncCall → β) (args : Args) (quality01 : ℚ)
    (ov : Option Variant) : β × EncCall :=
  let eff : Variant :=
    match ov with
    | some o => o
    | none => ⟨args.subsample, args.progressive, args.stripMetadata⟩
  (E ⟨quality01, eff⟩, ⟨quality01, eff⟩)

/-- The result object of `compressWithTarget`. -/
structure CompressResult (β : Type) where
  buf : β
  usedQuality : ℚ
  used : Variant
  pass : Bool
deriving DecidableEq, Repr

/-- A `bestClarity`/`bestFit` tracking record (`{buf, q, used}`). -/
structure Clar (β : Type) where
  buf : β
  q : ℚ
  used : Variant
deriving DecidableEq, Repr

/-- The fixed variant table of `compressWithTarget` (lines 256-261). -/
def variantsCLI : List Variant :=
  [⟨.s444, false, true⟩, ⟨.s444, true, true⟩, ⟨.s420, false, true⟩, ⟨.s420, true, true⟩]

/-- The bounded binary search of `compressWithTarget` (lines 284-299).
`fuel` counts the iterations remaining of
`for (let i = 0; i < 10 && hi - lo > 0.015; i++)`; the initial call uses
`10`.  Returns the best fitting buffer seen, its quality, and the trace of
probe calls. -/
def binSearchCLI {β : Type} (E : EncCall → β) (size : β → Nat) (args : Args)
    (target : Nat) (v : Variant) :
    Nat → ℚ → ℚ → β → ℚ → β × ℚ × List EncCall
  | 0, _, _, best, bestQ => (best, bestQ, [])
  | fuel + 1, lo, hi, best, bestQ =>
    if 3 / 200 < hi - lo then
      let mid := (lo + hi) / 2
      let p := encodeAtQuality E args mid (some v)
      if size p.1 ≤ target then
        let r := binSearchCLI E size args target v fuel mid hi p.1 mid
        (r.1, r.2.1, p.2 :: r.2.2)
      else
        let r := binSearchCLI E size args target v fuel lo mid best bestQ
        (r.1, r.2.1, p.2 :: r.2.2)
    else (best, bestQ, [])

/-- The variant loop of `compressWithTarget` (lines 269-309).  `bestFit` is
updated exactly as in the source and, as in the source, never contributes
to the returned result: after the loop the function always returns the
`bestClarity` candidate with `pass = false`. -/
def compressLoop {β : Type} (E : EncCall → β) (size : β → Nat) (args : Args)
    (target : Nat) (baseQ minQ : ℚ) :
    List Variant → Option (Clar β) → Option (Clar β) →
    Option (CompressResult β) × List EncCall
  | [], bestClarity, _bestFit =>
    (bestClarity.map fun bc => ⟨bc.buf, bc.q, bc.used, false⟩, [])
  | v :: rest, bestClarity, bestFit =>
    let pB := encodeAtQuality E args baseQ (some v)
    let atBase := pB.1
    let bestClarity' : Option (Clar β) :=
      match bestClarity with
      | none => some ⟨atBase, baseQ, v⟩
      | some bc => if size atBase < size bc.buf then some ⟨atBase, baseQ, v⟩ else some bc
    if size atBase ≤ target then
      (some ⟨atBase, baseQ, v, true⟩, [pB.2])
    else
      let pM := encodeAtQuality E args minQ (some v)
      let atMin := pM.1
      if target < size atMin then
        let r := compressLoop E size args target baseQ minQ rest bestClarity' bestFit
        (r.1, pB.2 :: pM.2 :: r.2)
      else
        let s := binSearchCLI E size args target v 10 minQ baseQ atMin minQ
        let bestFit' : Option (Clar β) :=
          match bestFit with
          | none => some ⟨s.1, s.2.1, v⟩
          | some bf => some bf
        let r := compressLoop E size args target baseQ minQ rest bestClarity' bestFit'
        (r.1, pB.2 :: pM.2 :: s.2.2 ++ r.2)

/-- Embedding of `compressWithTarget` (lines 239-310) with the encoder abstracted as
`E` and the buffer type abstracted as `β` with size function `size`.
Returns the result (none only for an empty variant table) and the trace of
every encode call made. -/
def compressWithTarget {β : Type} (E : EncCall → β) (size : β → Nat) (args : Args) :
    Option (CompressResult β) × List EncCall :=
  if jsFalsyN args.maxSizeBytes then
    let p := encodeAtQuality E args args.quality none
    (some ⟨p.1, args.quality, ⟨args.subsample, args.progressive, args.stripMetadata⟩, true⟩,
      [p.2])
  else
    let target := args.maxSizeBytes.getD 0
    let baseQ := clampQ args.quality
    let minQ := clampQ args.minQuality
    compressLoop E size args target baseQ minQ variantsCLI none none

/-- Options of the browser `encodeCanvasFitUnder`; `none` models an absent
field (`opts?.x ?? default`). -/
structure FitOpts where
  targetBytes : Option Nat := none
  baseQuality : Option ℚ := none
  minQuality : Option ℚ := none
deriving DecidableEq, Repr

/-- The result object of `encodeCanvasFitUnder`. -/
structure FitResult (β : Type) where
  blob : β
  usedQuality : ℚ
  tried : Nat
  pass : Bool
deriving DecidableEq, Repr

/-- The browser `clamp(n, min, max)` (part_000 lines 51-53). -/
def clamp (n lo hi : ℚ) : ℚ := max lo (min hi n)

/-- The bounded binary search of `encodeCanvasFitUnder` (part_000 lines
244-255): threshold `0.02`, at most 10 probes; `tried` counts every encode
made so far.  Returns best blob, its quality, the final `tried`, and the
trace of probe qualities. -/
def fitSearch {β : Type} (E : ℚ → β) (size : β → Nat) (t : Nat) :
    Nat → ℚ → ℚ → β → ℚ → Nat → β × ℚ × Nat × List ℚ
  | 0, _, _, best, bestQ, tried => (best, bestQ, tried, [])
  | fuel + 1, lo, hi, best, bestQ, tried =>
    if 1 / 50 < hi - lo then
      let mid := (lo + hi) / 2
      let b := E mid
      if size b ≤ t then
        let r := fitSearch E size t fuel mid hi b mid (tried + 1)
        (r.1, r.2.1, r.2.2.1, mid :: r.2.2.2)
      else
        let r := fitSearch E size t fuel lo mid best bestQ (tried + 1)
        (r.1, r.2.1, r.2.2.1, mid :: r.2.2.2)
    else (best, bestQ, tried, [])

/-- Embedding of `encodeCanvasFitUnder` (part_000 lines 214-258) with the
canvas/`canvasToJpegBlob` encode abstracted as `E : quality → blob`.  Also
returns the list of quality values passed to the encoder. -/
def encodeCanvasFitUnder {β : Type} (E : ℚ → β) (size : β → Nat) (opts : FitOpts) :
    FitResult β × List ℚ :=
  let targetBytes := opts.targetBytes
  let baseQuality := clamp (opts.baseQuality.getD (85 / 100)) (1 / 10) 1
  let minQuality := clamp (opts.minQuality.getD (55 / 100)) (1 / 10) 1
  if jsFalsyN targetBytes then
    (⟨E baseQuality, baseQuality, 1, true⟩, [baseQuality])
  else
    let t := targetBytes.getD 0
    let b := E baseQuality
    if size b ≤ t then (⟨b, baseQuality, 1, true⟩, [baseQuality])
    else
      let bestBlob := E minQuality
      if t < size bestBlob then
        (⟨bestBlob, minQuality, 2, false⟩, [baseQuality, minQuality])
      else
        let s := fitSearch E size t 10 minQuality baseQuality bestBlob minQuality 2
        (⟨s.1, s.2.1, s.2.2.1, true⟩, [baseQuality, minQuality] ++ s.2.2.2)

/-- The stub encoder of spec Scenarios A and B:
`size = floor(1,000,000 × fidelity)`, independent of the variant; a buffer
is represented by its byte count. -/
def stubEnc (c : EncCall) : Nat := (⌊(1000000 : ℚ) * c.quality⌋).toNat

/-- Scenario A configuration: defaults with a 600,000-byte target. -/
def argsScenarioA : Args := { maxSizeBytes := some 600000 }

/-- Scenario B configuration: defaults with a 100-byte target. -/
def argsScenarioB : Args := { maxSizeBytes := some 100 }


/-! ### Basic lemmas about the clamps -/

theorem clampQ_bounds (x : ℚ) : 1 / 10 ≤ clampQ x ∧ clampQ x ≤ 1 :=
  ⟨le_max_left _ _, max_le (by norm_num) (min_le_left _ _)⟩

theorem clamp_bounds (x : ℚ) : 1 / 10 ≤ clamp x (1 / 10) 1 ∧ clamp x (1 / 10) 1 ≤ 1 :=
  ⟨le_max_left _ _, max_le (by norm_num) (min_le_left _ _)⟩

theorem clamp01_ok_bounds {o : Option ℚ} {q : ℚ} (h : clamp01 o = .ok q) :
    1 / 10 ≤ q ∧ q ≤ 1 := by
  cases o with
  | none => simp [clamp01] at h
  | some x =>
    simp only [clamp01, Except.ok.injEq] at h
    subst h
    exact ⟨le_max_left _ _, max_le (by norm_num) (min_le_left _ _)⟩

/-! ### Lemmas about the CLI binary search -/

theorem binSearchCLI_length {β : Type} (E : EncCall → β) (size : β → Nat)
    (args : Args) (target : Nat) (v : Variant) :
    ∀ (fuel : Nat) (lo hi : ℚ) (b : β) (q : ℚ),
      (binSearchCLI E size args target v fuel lo hi b q).2.2.length ≤ fuel := by
  intro fuel
  induction fuel with
  | zero => intro lo hi b q; simp [binSearchCLI]
  | succ n ih =>
    intro lo hi b q
    simp only [binSearchCLI]
    split
    · split
      · simpa using Nat.succ_le_succ (ih _ _ _ _)
      · simpa using Nat.succ_le_succ (ih _ _ _ _)
    · simp

theorem binSearchCLI_nil {β : Type} (E : EncCall → β) (size : β → Nat)
    (args : Args) (target : Nat) (v : Variant) (fuel : Nat) (lo hi : ℚ) (b : β) (q : ℚ)
    (h : hi - lo ≤ 3 / 200) :
    (binSearchCLI E size args target v fuel lo hi b q).2.2 = [] := by
  cases fuel with
  | zero => simp [binSearchCLI]
  | succ n =>
    simp only [binSearchCLI]
    rw [if_neg (by linarith)]

theorem binSearchCLI_quality_mem {β : Type} (E : EncCall → β) (size : β → Nat)
    (args : Args) (target : Nat) (v : Variant) :
    ∀ (fuel : Nat) (lo hi : ℚ) (b : β) (q : ℚ),
      1 / 10 ≤ lo → lo ≤ 1 → 1 / 10 ≤ hi → hi ≤ 1 →
      ∀ c ∈ (binSearchCLI E size args target v fuel lo hi b q).2.2,
        1 / 10 ≤ c.quality ∧ c.quality ≤ 1 := by
  intro fuel
  induction fuel with
  | zero => intro lo hi b q _ _ _ _ c hc; simp [binSearchCLI] at hc
  | succ n ih =>
    intro lo hi b q hlo1 hlo2 hhi1 hhi2 c hc
    simp only [binSearchCLI] at hc
    split at hc
    · have hm1 : 1 / 10 ≤ (lo + hi) / 2 := by linarith
      have hm2 : (lo + hi) / 2 ≤ 1 := by linarith
      split at hc <;>
        ( simp only [List.mem_cons] at hc
          rcases hc with hc | hc
          · subst hc; exact ⟨hm1, hm2⟩
          · first
            | exact ih _ _ _ _ hm1 hm2 hhi1 hhi2 c hc
            | exact ih _ _ _ _ hlo1 hlo2 hm1 hm2 c hc )
    · simp at hc

theorem binSearchCLI_variant {β : Type} (E : EncCall → β) (size : β → Nat)
    (args : Args) (target : Nat) (v : Variant) :
    ∀ (fuel : Nat) (lo hi : ℚ) (b : β) (q : ℚ),
      ∀ c ∈ (binSearchCLI E size args target v fuel lo hi b q).2.2, c.variant = v := by
  intro fuel
  induction fuel with
  | zero => intro lo hi b q c hc; simp [binSearchCLI] at hc
  | succ n ih =>
    intro lo hi b q c hc
    simp only [binSearchCLI] at hc
    split at hc
    · split at hc <;>
        ( simp only [List.mem_cons] at hc
          rcases hc with hc | hc
          · subst hc; rfl
          · exact ih _ _ _ _ c hc )
    · simp at hc

theorem binSearchCLI_stripMetadata_irrel {β : Type} (E : EncCall → β) (size : β → Nat)
    (args : Args) (b' : Bool) (target : Nat) (v : Variant) :
    ∀ (fuel : Nat) (lo hi : ℚ) (b : β) (q : ℚ),
      binSearchCLI E size { args with stripMetadata := b' } target v fuel lo hi b q =
        binSearchCLI E size args target v fuel lo hi b q := by
  intro fuel
  induction fuel with
  | zero => intro lo hi b q; rfl
  | succ n ih =>
    intro lo hi b q
    simp only [binSearchCLI, encodeAtQuality]
    split
    · split
      · rw [ih]
      · rw [ih]
    · rfl

/-! ### Lemmas about the browser binary search -/

theorem fitSearch_length {β : Type} (E : ℚ → β) (size : β → Nat) (t : Nat) :
    ∀ (fuel : Nat) (lo hi : ℚ) (b : β) (q : ℚ) (tried : Nat),
      (fitSearch E size t fuel lo hi b q tried).2.2.2.length ≤ fuel := by
  intro fuel
  induction fuel with
  | zero => intro lo hi b q tried; simp [fitSearch]
  | succ n ih =>
    intro lo hi b q tried
    simp only [fitSearch]
    split
    · split
      · simpa using Nat.succ_le_succ (ih _ _ _ _ _)
      · simpa using Nat.succ_le_succ (ih _ _ _ _ _)
    · simp

theorem fitSearch_nil {β : Type} (E : ℚ → β) (size : β → Nat) (t : Nat)
    (fuel : Nat) (lo hi : ℚ) (b : β) (q : ℚ) (tried : Nat)
    (h : hi - lo ≤ 3 / 200) :
    (fitSearch E size t fuel lo hi b q tried).2.2.2 = [] := by
  cases fuel with
  | zero => simp [fitSearch]
  | succ n =>
    simp only [fitSearch]
    rw [if_neg (by linarith)]

theorem fitSearch_quality_mem {β : Type} (E : ℚ → β) (size : β → Nat) (t : Nat) :
    ∀ (fuel : Nat) (lo hi : ℚ) (b : β) (q : ℚ) (tried : Nat),
      1 / 10 ≤ lo → lo ≤ 1 → 1 / 10 ≤ hi → hi ≤ 1 →
      ∀ x ∈ (fitSearch E size t fuel lo hi b q tried).2.2.2,
        1 / 10 ≤ x ∧ x ≤ 1 := by
  intro fuel
  induction fuel with
  | zero => intro lo hi b q tried _ _ _ _ x hx; simp [fitSearch] at hx
  | succ n ih =>
    intro lo hi b q tried hlo1 hlo2 hhi1 hhi2 x hx
    simp only [fitSearch] at hx
    split at hx
    · have hm1 : 1 / 10 ≤ (lo + hi) / 2 := by linarith
      have hm2 : (lo + hi) / 2 ≤ 1 := by linarith
      split at hx <;>
        ( simp only [List.mem_cons] at hx
          rcases hx with hx | hx
          · subst hx; exact ⟨hm1, hm2⟩
          · first
            | exact ih _ _ _ _ _ hm1 hm2 hhi1 hhi2 x hx
            | exact ih _ _ _ _ _ hlo1 hlo2 hm1 hm2 x hx )
    · simp at hx

theorem fitSearch_fits {β : Type} (E : ℚ → β) (size : β → Nat) (t : Nat) :
    ∀ (fuel : Nat) (lo hi : ℚ) (b : β) (q : ℚ) (tried : Nat),
      size b ≤ t → size (fitSearch E size t fuel lo hi b q tried).1 ≤ t := by
  intro fuel
  induction fuel with
  | zero => intro lo hi b q tried hb; simpa [fitSearch] using hb
  | succ n ih =>
    intro lo hi b q tried hb
    simp only [fitSearch]
    split
    · split
      · next h => exact ih _ _ _ _ _ h
      · exact ih _ _ _ _ _ hb
    · simpa using hb

/-! ### Lemmas about the variant loop -/

theorem compressLoop_pass_size_le {β : Type} (E : EncCall → β) (size : β → Nat)
    (args : Args) (target : Nat) (baseQ minQ : ℚ) :
    ∀ (vs : List Variant) (bc bf : Option (Clar β)) (r : CompressResult β),
      (compressLoop E size args target baseQ minQ vs bc bf).1 = some r →
      r.pass = true → size r.buf ≤ target := by
  intro vs
  induction vs with
  | nil =>
    intro bc bf r hr hp
    cases bc with
    | none => simp [compressLoop] at hr
    | some c =>
      simp only [compressLoop, Option.map_some'] at hr
      rw [Option.some.injEq] at hr
      subst hr
      simp at hp
  | cons v rest ih =>
    intro bc bf r hr hp
    simp only [compressLoop] at hr
    split at hr
    · next h =>
      injection hr with hr
      subst hr
      simpa using h
    · split at hr
      · exact ih _ _ _ hr hp
      · exact ih _ _ _ hr hp

theorem compressLoop_trace_ne_nil {β : Type} (E : EncCall → β) (size : β → Nat)
    (args : Args) (target : Nat) (baseQ minQ : ℚ) (v : Variant) (vs : List Variant)
    (bc bf : Option (Clar β)) :
    (compressLoop E size args target baseQ minQ (v :: vs) bc bf).2 ≠ [] := by
  simp only [compressLoop]
  split
  · simp
  · split <;> simp

theorem compressLoop_quality_mem {β : Type} (E : EncCall → β) (size : β → Nat)
    (args : Args) (target : Nat) (baseQ minQ : ℚ)
    (hb1 : 1 / 10 ≤ baseQ) (hb2 : baseQ ≤ 1) (hm1 : 1 / 10 ≤ minQ) (hm2 : minQ ≤ 1) :
    ∀ (vs : List Variant) (bc bf : Option (Clar β)),
      ∀ c ∈ (compressLoop E size args target baseQ minQ vs bc bf).2,
        1 / 10 ≤ c.quality ∧ c.quality ≤ 1 := by
  intro vs
  induction vs with
  | nil => intro bc bf c hc; simp [compressLoop] at hc
  | cons v rest ih =>
    intro bc bf c hc
    simp only [compressLoop] at hc
    by_cases h1 : size (encodeAtQuality E args baseQ (some v)).1 ≤ target
    · rw [if_pos h1] at hc
      simp only [List.mem_singleton] at hc
      subst hc
      exact ⟨hb1, hb2⟩
    · rw [if_neg h1] at hc
      by_cases h2 : target < size (encodeAtQuality E args minQ (some v)).1
      · rw [if_pos h2] at hc
        simp only [List.mem_cons] at hc
        rcases hc with hc | hc | hc
        · subst hc; exact ⟨hb1, hb2⟩
        · subst hc; exact ⟨hm1, hm2⟩
        · exact ih _ _ c hc
      · rw [if_neg h2] at hc
        simp only [List.mem_cons, List.mem_append] at hc
        rcases hc with (hc | hc | hc) | hc
        · subst hc; exact ⟨hb1, hb2⟩
        · subst hc; exact ⟨hm1, hm2⟩
        · exact binSearchCLI_quality_mem E size args target v 10 minQ baseQ _ _
            hm1 hm2 hb1 hb2 c hc
        · exact ih _ _ c hc

theorem compressLoop_variant_mem {β : Type} (E : EncCall → β) (size : β → Nat)
    (args : Args) (target : Nat) (baseQ minQ : ℚ) :
    ∀ (vs : List Variant) (bc bf : Option (Clar β)),
      ∀ c ∈ (compressLoop E size args target baseQ minQ vs bc bf).2,
        c.variant ∈ vs := by
  intro vs
  induction vs with
  | nil => intro bc bf c hc; simp [compressLoop] at hc
  | cons v rest ih =>
    intro bc bf c hc
    simp only [compressLoop] at hc
    by_cases h1 : size (encodeAtQuality E args baseQ (some v)).1 ≤ target
    · rw [if_pos h1] at hc
      simp only [List.mem_singleton] at hc
      subst hc
      exact List.mem_cons_self _ _
    · rw [if_neg h1] at hc
      by_cases h2 : target < size (encodeAtQuality E args minQ (some v)).1
      · rw [if_pos h2] at hc
        simp only [List.mem_cons] at hc
        rcases hc with hc | hc | hc
        · subst hc; exact List.mem_cons_self _ _
        · subst hc; exact List.mem_cons_self _ _
        · exact List.mem_cons_of_mem _ (ih _ _ c hc)
      · rw [if_neg h2] at hc
        simp only [List.mem_cons, List.mem_append] at hc
        rcases hc with (hc | hc | hc) | hc
        · subst hc; exact List.mem_cons_self _ _
        · subst hc; exact List.mem_cons_self _ _
        · rw [binSearchCLI_variant E size args target v 10 minQ baseQ _ _ c hc]
          exact List.mem_cons_self _ _
        · exact List.mem_cons_of_mem _ (ih _ _ c hc)

theorem compressLoop_stripMetadata_irrel {β : Type} (E : EncCall → β) (size : β → Nat)
    (args : Args) (b' : Bool) (target : Nat) (baseQ minQ : ℚ) :
    ∀ (vs : List Variant) (bc bf : Option (Clar β)),
      compressLoop E size { args with stripMetadata := b' } target baseQ minQ vs bc bf =
        compressLoop E size args target baseQ minQ vs bc bf := by
  intro vs
  induction vs with
  | nil => intro bc bf; rfl
  | cons v rest ih =>
    intro bc bf
    simp only [compressLoop, encodeAtQuality, binSearchCLI_stripMetadata_irrel]
    split
    · rfl
    · split
      · rw [ih]
      · rw [ih]

/-! ### The all-infeasible case of the variant loop -/

/-- One `bestClarity` update of the variant loop (line 272:
`if (!bestClarity || atBase.length < bestClarity.buf.length)`),
expressed as a fold step for reasoning about the loop. -/
def clarStep {β : Type} (E : EncCall → β) (size : β → Nat) (baseQ : ℚ)
    (a : Option (Clar β)) (v : Variant) : Option (Clar β) :=
  match a with
  | none => some ⟨E ⟨baseQ, v⟩, baseQ, v⟩
  | some b =>
    if size (E ⟨baseQ, v⟩) < size b.buf then some ⟨E ⟨baseQ, v⟩, baseQ, v⟩ else some b

theorem compressLoop_infeasible {β : Type} (E : EncCall → β) (size : β → Nat)
    (args : Args) (target : Nat) (baseQ minQ : ℚ) :
    ∀ (vs : List Variant) (bc bf : Option (Clar β)),
      (∀ v ∈ vs, target < size (E ⟨baseQ, v⟩)) →
      (compressLoop E size args target baseQ minQ vs bc bf).1 =
        (vs.foldl (clarStep E size baseQ) bc).map fun c => ⟨c.buf, c.q, c.used, false⟩ := by
  intro vs
  induction vs with
  | nil => intro bc bf _; rfl
  | cons v rest ih =>
    intro bc bf hbase
    have hb := hbase v (List.mem_cons_self _ _)
    have hrest := fun w hw => hbase w (List.mem_cons_of_mem _ hw)
    simp only [compressLoop, encodeAtQuality]
    rw [if_neg (not_le.mpr hb), List.foldl_cons]
    by_cases hm : target < size (E ⟨minQ, v⟩)
    · rw [if_pos hm]
      exact ih (clarStep E size baseQ bc v) bf hrest
    · rw [if_neg hm]
      exact ih (clarStep E size baseQ bc v) _ hrest

theorem clarFoldl_spec {β : Type} (E : EncCall → β) (size : β → Nat) (baseQ : ℚ) :
    ∀ (vs : List Variant) (b : Clar β),
      ∃ c, vs.foldl (clarStep E size baseQ) (some b) = some c ∧
        (c = b ∨ (c.q = baseQ ∧ c.used ∈ vs ∧ c.buf = E ⟨baseQ, c.used⟩)) ∧
        size c.buf ≤ size b.buf ∧
        ∀ v ∈ vs, size c.buf ≤ size (E ⟨baseQ, v⟩) := by
  intro vs
  induction vs with
  | nil =>
    intro b
    exact ⟨b, rfl, Or.inl rfl, le_refl _, by simp⟩
  | cons v rest ih =>
    intro b
    by_cases h : size (E ⟨baseQ, v⟩) < size b.buf
    · obtain ⟨c, hc1, hc2, hc3, hc4⟩ := ih ⟨E ⟨baseQ, v⟩, baseQ, v⟩
      refine ⟨c, ?_, ?_, ?_, ?_⟩
      · rw [List.foldl_cons]
        simpa [clarStep, if_pos h] using hc1
      · rcases hc2 with rfl | ⟨hq, hu, hbuf⟩
        · exact Or.inr ⟨rfl, List.mem_cons_self _ _, rfl⟩
        · exact Or.inr ⟨hq, List.mem_cons_of_mem _ hu, hbuf⟩
      · exact le_trans hc3 (le_of_lt h)
      · intro w hw
        rcases List.mem_cons.mp hw with rfl | hw
        · exact hc3
        · exact hc4 w hw
    · obtain ⟨c, hc1, hc2, hc3, hc4⟩ := ih b
      refine ⟨c, ?_, ?_, hc3, ?_⟩
      · rw [List.foldl_cons]
        simpa [clarStep, if_neg h] using hc1
      · rcases hc2 with rfl | ⟨hq, hu, hbuf⟩
        · exact Or.inl rfl
        · exact Or.inr ⟨hq, List.mem_cons_of_mem _ hu, hbuf⟩
      · intro w hw
        rcases List.mem_cons.mp hw with rfl | hw
        · exact le_trans hc3 (not_lt.mp h)
        · exact hc4 w hw

/-- C3: when no variant meets the target at any permitted fidelity in
`[minFidelity, baseFidelity]`, `compressWithTarget` returns the
smallest-size encode made at `baseFidelity` across all variants, with
`usedFidelity` equal to the (clamped) base fidelity and `pass = false`. -/
theorem compressWithTarget_infeasible_fallback {β : Type} (E : EncCall → β)
    (size : β → Nat) (args : Args) (t : Nat)
    (ht : args.maxSizeBytes = some t) (ht0 : t ≠ 0)
    (hmb : clampQ args.minQuality ≤ clampQ args.quality)
    (hall : ∀ v ∈ variantsCLI, ∀ q : ℚ, clampQ args.minQuality ≤ q →
      q ≤ clampQ args.quality → t < size (E ⟨q, v⟩)) :
    ∃ r : CompressResult β, (compressWithTarget E size args).1 = some r ∧
      r.pass = false ∧ r.usedQuality = clampQ args.quality ∧
      r.used ∈ variantsCLI ∧ r.buf = E ⟨clampQ args.quality, r.used⟩ ∧
      ∀ v ∈ variantsCLI, size r.buf ≤ size (E ⟨clampQ args.quality, v⟩) := by
  have hfalsy : jsFalsyN args.maxSizeBytes = false := by
    rw [ht]
    cases t with
    | zero => exact absurd rfl ht0
    | succ n => rfl
  have hbase : ∀ v ∈ variantsCLI, t < size (E ⟨clampQ args.quality, v⟩) :=
    fun v hv => hall v hv _ hmb (le_refl _)
  have hunfold : compressWithTarget E size args =
      compressLoop E size args t (clampQ args.quality) (clampQ args.minQuality)
        variantsCLI none none := by
    unfold compressWithTarget
    rw [if_neg (by simp [hfalsy]), ht]
    rfl
  rw [hunfold,
    compressLoop_infeasible E size args t (clampQ args.quality) (clampQ args.minQuality)
      variantsCLI none none hbase]
  have hv1 : (⟨.s444, false, true⟩ : Variant) ∈ variantsCLI := by decide
  obtain ⟨c, hc1, hc2, hc3, hc4⟩ :=
    clarFoldl_spec E size (clampQ args.quality)
      [⟨.s444, true, true⟩, ⟨.s420, false, true⟩, ⟨.s420, true, true⟩]
      ⟨E ⟨clampQ args.quality, ⟨.s444, false, true⟩⟩, clampQ args.quality,
        ⟨.s444, false, true⟩⟩
  have hfold : variantsCLI.foldl (clarStep E size (clampQ args.quality)) none = some c := by
    simp only [variantsCLI, List.foldl_cons]
    exact hc1
  rw [hfold]
  refine ⟨⟨c.buf, c.q, c.used, false⟩, rfl, rfl, ?_, ?_, ?_, ?_⟩
  · rcases hc2 with rfl | ⟨hq, _, _⟩
    · rfl
    · exact hq
  · rcases hc2 with rfl | ⟨_, hu, _⟩
    · exact hv1
    · exact List.mem_cons_of_mem _ hu
  · rcases hc2 with rfl | ⟨_, _, hbuf⟩
    · rfl
    · exact hbuf
  · intro v hv
    rcases List.mem_cons.mp hv with rfl | hv
    · exact hc3
    · exact hc4 v hv

/-! ### Concrete evaluation helpers for the stub scenarios -/

theorem stubEnc_eq (q : ℚ) (v : Variant) (n : Nat)
    (h : (1000000 : ℚ) * q = (n : ℚ)) : stubEnc ⟨q, v⟩ = n := by
  unfold stubEnc
  rw [h, Int.floor_natCast, Int.toNat_natCast]

theorem clampQ_default_quality : clampQ (85 / 100) = 17 / 20 := by
  unfold clampQ
  rw [min_eq_right (by norm_num), max_eq_right (by norm_num)]
  norm_num

theorem clampQ_default_minQuality : clampQ (55 / 100) = 11 / 20 := by
  unfold clampQ
  rw [min_eq_right (by norm_num), max_eq_right (by norm_num)]
  norm_num

theorem stubEnc_base_eval (v : Variant) : stubEnc ⟨(17 : ℚ) / 20, v⟩ = 850000 :=
  stubEnc_eq _ v 850000 (by norm_num)

theorem stubEnc_min_eval (v : Variant) : stubEnc ⟨(11 : ℚ) / 20, v⟩ = 550000 :=
  stubEnc_eq _ v 550000 (by norm_num)

theorem argsScenarioA_unfold :
    compressWithTarget stubEnc id argsScenarioA =
      compressLoop stubEnc id argsScenarioA 600000 (clampQ (85 / 100))
        (clampQ (55 / 100)) variantsCLI none none := rfl

theorem scenarioA_base_misses :
    ∀ v ∈ variantsCLI, 600000 < id (stubEnc ⟨clampQ (85 / 100), v⟩) := by
  intro v _
  rw [id_eq, clampQ_default_quality, stubEnc_base_eval]
  norm_num

theorem compressLoop_min_call_mem {β : Type} (E : EncCall → β) (size : β → Nat)
    (args : Args) (target : Nat) (baseQ minQ : ℚ) (v : Variant) (rest : List Variant)
    (bc bf : Option (Clar β)) (h : ¬ size (E ⟨baseQ, v⟩) ≤ target) :
    (⟨minQ, v⟩ : EncCall) ∈
      (compressLoop E size args target baseQ minQ (v :: rest) bc bf).2 := by
  simp only [compressLoop, encodeAtQuality]
  rw [if_neg h]
  by_cases h2 : target < size (E ⟨minQ, v⟩)
  · rw [if_pos h2]
    simp
  · rw [if_neg h2]
    simp

theorem compressLoop_base_call_mem {β : Type} (E : EncCall → β) (size : β → Nat)
    (args : Args) (target : Nat) (baseQ minQ : ℚ) (v : Variant) (rest : List Variant)
    (bc bf : Option (Clar β)) :
    (⟨baseQ, v⟩ : EncCall) ∈
      (compressLoop E size args target baseQ minQ (v :: rest) bc bf).2 := by
  simp only [compressLoop, encodeAtQuality]
  by_cases h1 : size (E ⟨baseQ, v⟩) ≤ target
  · rw [if_pos h1]
    simp
  · rw [if_neg h1]
    by_cases h2 : target < size (E ⟨minQ, v⟩)
    · rw [if_pos h2]
      simp
    · rw [if_neg h2]
      simp

/-- C1 (code behavior at spec Scenario A, target 600,000 bytes with the
stub encoder): the claim predicts that the binary-search fit (fidelity
≈ 0.600) is returned with pass = true; the code records that fit only in
the dead `bestFit` variable and never returns it, so after scanning all
variants it returns the fidelity-preserving fallback — usedQuality 0.85,
size 850,000, pass = false. -/
theorem scenarioA_returns_fallback_not_fit :
    (compressWithTarget stubEnc id argsScenarioA).1 =
      some ⟨850000, 17 / 20, ⟨.s444, false, true⟩, false⟩ := by
  rw [argsScenarioA_unfold,
    compressLoop_infeasible stubEnc id argsScenarioA 600000 (clampQ (85 / 100))
      (clampQ (55 / 100)) variantsCLI none none scenarioA_base_misses]
  simp [variantsCLI, clarStep, clampQ_default_quality, stubEnc_base_eval]

/-- C2 (violated at spec Scenario A): the returned result has pass = false
even though the search did perform an encode attempt — minFidelity 0.55 on
the first variant, producing 550,000 bytes — whose output size is at most
the 600,000-byte target. -/
theorem scenarioA_pass_false_despite_fit :
    ((compressWithTarget stubEnc id argsScenarioA).1.map fun r => r.pass) = some false ∧
      (⟨11 / 20, ⟨.s444, false, true⟩⟩ : EncCall) ∈
        (compressWithTarget stubEnc id argsScenarioA).2 ∧
      stubEnc ⟨11 / 20, ⟨.s444, false, true⟩⟩ ≤ 600000 := by
  refine ⟨?_, ?_, ?_⟩
  · rw [argsScenarioA_unfold,
      compressLoop_infeasible stubEnc id argsScenarioA 600000 (clampQ (85 / 100))
        (clampQ (55 / 100)) variantsCLI none none scenarioA_base_misses]
    simp [variantsCLI, clarStep, clampQ_default_quality, stubEnc_base_eval]
  · have hrw : (11 / 20 : ℚ) = clampQ (55 / 100) := clampQ_default_minQuality.symm
    rw [argsScenarioA_unfold, hrw]
    exact compressLoop_min_call_mem stubEnc id argsScenarioA 600000 (clampQ (85 / 100))
      (clampQ (55 / 100)) ⟨.s444, false, true⟩
      [⟨.s444, true, true⟩, ⟨.s420, false, true⟩, ⟨.s420, true, true⟩] none none
      (not_le.mpr (scenarioA_base_misses ⟨.s444, false, true⟩ (by simp [variantsCLI])))
  · rw [stubEnc_eq (11 / 20) ⟨.s444, false, true⟩ 550000 (by norm_num)]
    norm_num

theorem scenarioB_all_miss :
    ∀ v ∈ variantsCLI, ∀ q : ℚ, clampQ argsScenarioB.minQuality ≤ q →
      q ≤ clampQ argsScenarioB.quality → 100 < id (stubEnc ⟨q, v⟩) := by
  intro v _ q hq1 _
  have hm : clampQ argsScenarioB.minQuality = 11 / 20 := clampQ_default_minQuality
  rw [hm] at hq1
  have hfl : (550000 : ℤ) ≤ ⌊(1000000 : ℚ) * q⌋ := by
    apply Int.le_floor.mpr
    push_cast
    linarith
  rw [id_eq]
  unfold stubEnc
  exact Int.lt_toNat.mpr (lt_of_lt_of_le (by norm_num) hfl)

/-- Witness for the infeasible-fallback theorem at spec Scenario B: target
100 bytes with the stub encoder; the result is pass = false at
usedFidelity 0.85 with the 850,000-byte base encode. -/
theorem compressWithTarget_infeasible_fallback_witness :
    ∃ r : CompressResult Nat,
      (compressWithTarget stubEnc id argsScenarioB).1 = some r ∧
        r.pass = false ∧ r.usedQuality = 17 / 20 ∧ r.buf = 850000 := by
  obtain ⟨r, h1, h2, h3, h4, h5, h6⟩ :=
    compressWithTarget_infeasible_fallback stubEnc id argsScenarioB 100 rfl
      (Nat.succ_ne_zero 99)
      (by
        rw [show argsScenarioB.minQuality = 55 / 100 from rfl,
          show argsScenarioB.quality = 85 / 100 from rfl,
          clampQ_default_minQuality, clampQ_default_quality]
        norm_num)
      scenarioB_all_miss
  refine ⟨r, h1, h2, ?_, ?_⟩
  · rw [h3]
    exact clampQ_default_quality
  · rw [h5]
    have hq : stubEnc ⟨clampQ argsScenarioB.quality, r.used⟩ =
        stubEnc ⟨(17 : ℚ) / 20, r.used⟩ := by
      rw [show argsScenarioB.quality = 85 / 100 from rfl, clampQ_default_quality]
    rw [hq]
    exact stubEnc_base_eval r.used

/-- C4: for each variant, the bounded binary search over
[minFidelity, baseFidelity] performs at most 10 probe encodes beyond the
base and min encodes, and performs none once the interval width is at most
0.015 — for the CLI search and for the browser search. -/
theorem search_probe_bound {β γ : Type} (E : EncCall → β) (size : β → Nat)
    (args : Args) (target : Nat) (v : Variant) (lo hi : ℚ) (b : β) (q : ℚ)
    (F : ℚ → γ) (sz : γ → Nat) (t : Nat) (lo' hi' : ℚ) (g : γ) (q' : ℚ) (tried : Nat) :
    ((binSearchCLI E size args target v 10 lo hi b q).2.2.length ≤ 10 ∧
      (hi - lo ≤ 3 / 200 → (binSearchCLI E size args target v 10 lo hi b q).2.2 = [])) ∧
    ((fitSearch F sz t 10 lo' hi' g q' tried).2.2.2.length ≤ 10 ∧
      (hi' - lo' ≤ 3 / 200 → (fitSearch F sz t 10 lo' hi' g q' tried).2.2.2 = [])) :=
  ⟨⟨binSearchCLI_length E size args target v 10 lo hi b q,
    fun h => binSearchCLI_nil E size args target v 10 lo hi b q h⟩,
   ⟨fitSearch_length F sz t 10 lo' hi' g q' tried,
    fun h => fitSearch_nil F sz t 10 lo' hi' g q' tried h⟩⟩

theorem sub_self_le_threshold : (11 : ℚ) / 20 - 11 / 20 ≤ 3 / 200 := by norm_num

/-- Witness for the probe-bound theorem at a concrete zero-width interval:
no probe encode is performed. -/
theorem search_probe_bound_witness :
    ((binSearchCLI stubEnc id argsScenarioA 600000 ⟨.s444, false, true⟩ 10
        (11 / 20) (11 / 20) 0 (11 / 20)).2.2.length ≤ 10 ∧
      (binSearchCLI stubEnc id argsScenarioA 600000 ⟨.s444, false, true⟩ 10
        (11 / 20) (11 / 20) 0 (11 / 20)).2.2 = []) ∧
    ((fitSearch (fun q => stubEnc ⟨q, ⟨.s444, false, true⟩⟩) id 600000 10
        (11 / 20) (11 / 20) 0 (11 / 20) 2).2.2.2.length ≤ 10 ∧
      (fitSearch (fun q => stubEnc ⟨q, ⟨.s444, false, true⟩⟩) id 600000 10
        (11 / 20) (11 / 20) 0 (11 / 20) 2).2.2.2 = []) := by
  obtain ⟨⟨h1, h2⟩, h3, h4⟩ :=
    search_probe_bound stubEnc id argsScenarioA 600000 ⟨.s444, false, true⟩
      (11 / 20) (11 / 20) 0 (11 / 20)
      (fun q => stubEnc ⟨q, ⟨.s444, false, true⟩⟩) id 600000
      (11 / 20) (11 / 20) 0 (11 / 20) 2
  exact ⟨⟨h1, h2 sub_self_le_threshold⟩, h3, h4 sub_self_le_threshold⟩

theorem compressLoop_base_fit {β : Type} (E : EncCall → β) (size : β → Nat)
    (args : Args) (target : Nat) (baseQ minQ : ℚ) (v : Variant) (rest : List Variant)
    (bc bf : Option (Clar β)) (h : size (E ⟨baseQ, v⟩) ≤ target) :
    compressLoop E size args target baseQ minQ (v :: rest) bc bf =
      (some ⟨E ⟨baseQ, v⟩, baseQ, v, true⟩, [⟨baseQ, v⟩]) := by
  simp only [compressLoop, encodeAtQuality]
  rw [if_pos h]

/-- C5: whenever a byte target is configured and the returned result has
pass = true, the size of the returned output is at most the target — for
the CLI `compressWithTarget` and for the browser `encodeCanvasFitUnder`. -/
theorem pass_true_size_le_target :
    (∀ (β : Type) (E : EncCall → β) (size : β → Nat) (args : Args) (t : Nat)
      (r : CompressResult β), args.maxSizeBytes = some t → t ≠ 0 →
      (compressWithTarget E size args).1 = some r → r.pass = true →
      size r.buf ≤ t) ∧
    (∀ (γ : Type) (F : ℚ → γ) (sz : γ → Nat) (opts : FitOpts) (t : Nat),
      opts.targetBytes = some t → t ≠ 0 →
      (encodeCanvasFitUnder F sz opts).1.pass = true →
      sz (encodeCanvasFitUnder F sz opts).1.blob ≤ t) := by
  constructor
  · intro β E size args t r ht ht0 hr hp
    have hfalsy : jsFalsyN args.maxSizeBytes = false := by
      rw [ht]
      cases t with
      | zero => exact absurd rfl ht0
      | succ n => rfl
    have hunfold : compressWithTarget E size args =
        compressLoop E size args t (clampQ args.quality) (clampQ args.minQuality)
          variantsCLI none none := by
      unfold compressWithTarget
      rw [if_neg (by simp [hfalsy]), ht]
      rfl
    rw [hunfold] at hr
    exact compressLoop_pass_size_le E size args t (clampQ args.quality)
      (clampQ args.minQuality) variantsCLI none none r hr hp
  · intro γ F sz opts t ht ht0 hp
    have hfalsy : jsFalsyN (some t) = false := by
      cases t with
      | zero => exact absurd rfl ht0
      | succ n => rfl
    by_cases hb : sz (F (clamp (opts.baseQuality.getD (85 / 100)) (1 / 10) 1)) ≤ t
    · simp only [encodeCanvasFitUnder, ht, Option.getD_some]
      rw [if_neg (by simp [hfalsy]), if_pos hb]
      exact hb
    · by_cases hm : t < sz (F (clamp (opts.minQuality.getD (55 / 100)) (1 / 10) 1))
      · simp only [encodeCanvasFitUnder, ht, Option.getD_some] at hp
        rw [if_neg (by simp [hfalsy]), if_neg hb, if_pos hm] at hp
        simp at hp
      · simp only [encodeCanvasFitUnder, ht, Option.getD_some] at hp ⊢
        rw [if_neg (by simp [hfalsy]), if_neg hb, if_neg hm] at hp ⊢
        exact fitSearch_fits F sz t 10 _ _ _ _ 2 (not_lt.mp hm)

/-- Witness for the budget-respect theorem: target 900,000 with the stub
encoder fits immediately at base fidelity (size 850,000 ≤ 900,000). -/
theorem pass_true_size_le_target_witness :
    ∃ r : CompressResult Nat,
      (compressWithTarget stubEnc id { maxSizeBytes := some 900000 : Args }).1 = some r ∧
        r.pass = true ∧ id r.buf ≤ 900000 := by
  have hrun : compressWithTarget stubEnc id { maxSizeBytes := some 900000 : Args } =
      (some ⟨stubEnc ⟨clampQ (85 / 100), ⟨.s444, false, true⟩⟩, clampQ (85 / 100),
          ⟨.s444, false, true⟩, true⟩,
        [⟨clampQ (85 / 100), ⟨.s444, false, true⟩⟩]) := by
    rw [show compressWithTarget stubEnc id { maxSizeBytes := some 900000 : Args } =
        compressLoop stubEnc id { maxSizeBytes := some 900000 : Args } 900000
          (clampQ (85 / 100)) (clampQ (55 / 100)) variantsCLI none none from rfl]
    exact compressLoop_base_fit stubEnc id { maxSizeBytes := some 900000 : Args } 900000
      (clampQ (85 / 100)) (clampQ (55 / 100)) ⟨.s444, false, true⟩
      [⟨.s444, true, true⟩, ⟨.s420, false, true⟩, ⟨.s420, true, true⟩] none none
      (by rw [id_eq, clampQ_default_quality, stubEnc_base_eval]; norm_num)
  refine ⟨⟨stubEnc ⟨clampQ (85 / 100), ⟨.s444, false, true⟩⟩, clampQ (85 / 100),
    ⟨.s444, false, true⟩, true⟩, by rw [hrun], rfl, ?_⟩
  exact pass_true_size_le_target.1 Nat stubEnc id
    { maxSizeBytes := some 900000 : Args } 900000 _ rfl (by norm_num) (by rw [hrun]) rfl

theorem finalizeArgs_quality_bounds {raw : RawArgs} {args : Args}
    (h : finalizeArgs raw = .ok args) : 1 / 10 ≤ args.quality ∧ args.quality ≤ 1 := by
  unfold finalizeArgs at h
  cases hq : clamp01 raw.quality with
  | error e => rw [hq] at h; exact absurd h (by simp)
  | ok q =>
    rw [hq] at h
    cases hmq : clamp01 raw.minQuality with
    | error e => rw [hmq] at h; exact absurd h (by simp)
    | ok mq =>
      rw [hmq] at h
      cases hs : normalizeSubsample raw.subsample with
      | error e => rw [hs] at h; exact absurd h (by simp)
      | ok sub =>
        rw [hs] at h
        cases hz : sizeResolve (raw.fitUnder.or raw.maxSize) with
        | error e => rw [hz] at h; exact absurd h (by simp)
        | ok msb =>
          rw [hz, Except.ok.injEq] at h
          subst h
          exact clamp01_ok_bounds hq

theorem parseArgs_quality_bounds {argv : List String} {args : Args}
    (h : parseArgs argv = .ok args) : 1 / 10 ≤ args.quality ∧ args.quality ≤ 1 := by
  unfold parseArgs at h
  cases hl : parseArgsLoop argv {} with
  | error e => rw [hl] at h; exact absurd h (by simp)
  | ok raw =>
    rw [hl] at h
    exact finalizeArgs_quality_bounds h

deriving instance DecidableEq for Except

theorem compressWithTarget_trace_ne_nil {β : Type} (E : EncCall → β) (size : β → Nat)
    (args : Args) (hf : jsFalsyN args.maxSizeBytes = false) :
    (compressWithTarget E size args).2 ≠ [] := by
  unfold compressWithTarget
  rw [if_neg (by rw [hf]; exact Bool.false_ne_true)]
  exact compressLoop_trace_ne_nil E size args (args.maxSizeBytes.getD 0)
    (clampQ args.quality) (clampQ args.minQuality) ⟨.s444, false, true⟩
    [⟨.s444, true, true⟩, ⟨.s420, false, true⟩, ⟨.s420, true, true⟩] none none

/-- The arguments produced by
`--quality 0.5 --min-quality 0.9 --max-size 600000 in.jpg`. -/
def argsMinGtBase : Args :=
  { quality := clampQ (((0 : ℕ) : ℚ) + ((5 : ℕ) : ℚ) / 10 ^ (1 : ℕ)),
    minQuality := clampQ (((0 : ℕ) : ℚ) + ((9 : ℕ) : ℚ) / 10 ^ (1 : ℕ)),
    maxSize := some "600000", inputs := ["in.jpg"], maxSizeBytes := some 600000 }

/-- C6 counterexample: a configuration with min quality 0.9 > quality 0.5
is not detected or rejected — `parseArgs` accepts it, clamping each value
independently, and the target search still performs encode attempts
(rather than failing before any encode). -/
theorem minQuality_gt_quality_accepted_cex :
    parseArgs ["--quality", "0.5", "--min-quality", "0.9", "--max-size", "600000",
        "in.jpg"] = .ok argsMinGtBase ∧
      argsMinGtBase.quality < argsMinGtBase.minQuality ∧
      (compressWithTarget stubEnc id argsMinGtBase).2 ≠ [] := by
  refine ⟨rfl, ?_, compressWithTarget_trace_ne_nil stubEnc id argsMinGtBase rfl⟩
  show clampQ (((0 : ℕ) : ℚ) + ((5 : ℕ) : ℚ) / 10 ^ (1 : ℕ)) <
    clampQ (((0 : ℕ) : ℚ) + ((9 : ℕ) : ℚ) / 10 ^ (1 : ℕ))
  unfold clampQ
  rw [min_eq_right (by push_cast; norm_num), min_eq_right (by push_cast; norm_num),
    max_eq_right (by push_cast; norm_num), max_eq_right (by push_cast; norm_num)]
  push_cast
  norm_num

/-- C6 amended: a configuration with minFidelity > baseFidelity is not an
InvalidConfiguration in this code: the `parseArgs` normalization clamps
each fidelity independently into [0.1, 1.0] and succeeds regardless of
their relative order, and whenever a target is configured the search still
performs encode attempts — no validation rejects the inverted pair before
encoding. -/
theorem minQuality_gt_quality_not_rejected :
    (∀ q m : ℚ, finalizeArgs { quality := some q, minQuality := some m } =
      .ok { quality := clampQ q, minQuality := clampQ m }) ∧
    ∀ (β : Type) (E : EncCall → β) (size : β → Nat) (args : Args),
      jsFalsyN args.maxSizeBytes = false → (compressWithTarget E size args).2 ≠ [] :=
  ⟨fun _ _ => rfl, fun _ E size args hf => compressWithTarget_trace_ne_nil E size args hf⟩

/-- Witness for the no-rejection theorem: quality 0.5 with min quality 0.9
is normalized successfully, and the Scenario B run performs encodes. -/
theorem minQuality_gt_quality_not_rejected_witness :
    finalizeArgs { quality := some (1 / 2), minQuality := some (9 / 10) } =
        .ok { quality := clampQ (1 / 2), minQuality := clampQ (9 / 10) } ∧
      (compressWithTarget stubEnc id argsScenarioB).2 ≠ [] :=
  ⟨minQuality_gt_quality_not_rejected.1 (1 / 2) (9 / 10),
   minQuality_gt_quality_not_rejected.2 Nat stubEnc id argsScenarioB rfl⟩

/-- C7 counterexample: with no byte target and `--progressive` set, the
single passthrough encode uses the configured flags (progressive on), not
the variant table's first entry (progressive off), so the claim's "with
the Variant Table's first variant" fails on the code. -/
theorem passthrough_not_first_variant_cex :
    ((compressWithTarget stubEnc id { progressive := true : Args }).1.map
        fun r => r.used) = some ⟨.s444, true, true⟩ ∧
      variantsCLI.head? = some ⟨.s444, false, true⟩ :=
  ⟨rfl, rfl⟩

/-- C7 amended: when no byte target is configured, exactly one encode is
performed, at the base fidelity with the configured
subsample/progressive/metadata flags (these equal the variant table's
first entry only under default settings); the result always has
pass = true and usedFidelity equal to the base fidelity, which `parseArgs`
guarantees lies in [0.1, 1.0]; the browser one-shot path behaves the same
way. -/
theorem passthrough_single_encode :
    (∀ (β : Type) (E : EncCall → β) (size : β → Nat) (args : Args),
      jsFalsyN args.maxSizeBytes = true →
      compressWithTarget E size args =
        (some ⟨E ⟨args.quality, ⟨args.subsample, args.progressive, args.stripMetadata⟩⟩,
            args.quality, ⟨args.subsample, args.progressive, args.stripMetadata⟩, true⟩,
          [⟨args.quality, ⟨args.subsample, args.progressive, args.stripMetadata⟩⟩])) ∧
    (∀ (argv : List String) (args : Args), parseArgs argv = .ok args →
      1 / 10 ≤ args.quality ∧ args.quality ≤ 1) ∧
    ∀ (γ : Type) (F : ℚ → γ) (sz : γ → Nat) (opts : FitOpts),
      jsFalsyN opts.targetBytes = true →
      encodeCanvasFitUnder F sz opts =
        (⟨F (clamp (opts.baseQuality.getD (85 / 100)) (1 / 10) 1),
          clamp (opts.baseQuality.getD (85 / 100)) (1 / 10) 1, 1, true⟩,
          [clamp (opts.baseQuality.getD (85 / 100)) (1 / 10) 1]) := by
  refine ⟨?_, ?_, ?_⟩
  · intro β E size args hf
    unfold compressWithTarget
    rw [if_pos hf]
    rfl
  · intro argv args h
    exact parseArgs_quality_bounds h
  · intro γ F sz opts hf
    unfold encodeCanvasFitUnder
    rw [if_pos hf]

/-- The arguments produced by `parseArgs` on an empty command line. -/
def argsDefaultParsed : Args :=
  { quality := clampQ (85 / 100), minQuality := clampQ (55 / 100) }

/-- Witness for the passthrough theorem at the default (no target)
configuration. -/
theorem passthrough_single_encode_witness :
    compressWithTarget stubEnc id argsDefaultParsed =
        (some ⟨stubEnc ⟨clampQ (85 / 100), ⟨.s444, false, true⟩⟩, clampQ (85 / 100),
            ⟨.s444, false, true⟩, true⟩,
          [⟨clampQ (85 / 100), ⟨.s444, false, true⟩⟩]) ∧
      parseArgs [] = .ok argsDefaultParsed ∧
      1 / 10 ≤ argsDefaultParsed.quality ∧ argsDefaultParsed.quality ≤ 1 :=
  ⟨passthrough_single_encode.1 Nat stubEnc id argsDefaultParsed rfl, rfl,
   passthrough_single_encode.2.1 [] argsDefaultParsed rfl⟩

/-! ### Lemmas about the Size-Target Normalizer -/

theorem decNat_eq_ofDigits (l : List Char) :
    decNat l = Nat.ofDigits 10 ((l.map fun c => c.toNat - 48).reverse) := by
  have aux : ∀ (l : List Char) (acc : Nat),
      l.foldl (fun n c => 10 * n + (c.toNat - 48)) acc =
        acc * 10 ^ l.length + Nat.ofDigits 10 ((l.map fun c => c.toNat - 48).reverse) := by
    intro l
    induction l with
    | nil => intro acc; simp [Nat.ofDigits_nil]
    | cons c l ih =>
      intro acc
      rw [List.foldl_cons, ih, List.length_cons, List.map_cons, List.reverse_cons,
        Nat.ofDigits_append]
      simp only [Nat.ofDigits_cons, Nat.ofDigits_nil, List.length_reverse,
        List.length_map]
      ring
  have h := aux l 0
  unfold decNat
  rw [h]
  simp

theorem takeWhile_all_eq {p : Char → Bool} :
    ∀ l : List Char, l.all p = true → l.takeWhile p = l := by
  intro l
  induction l with
  | nil => intro _; rfl
  | cons c l ih =>
    intro h
    rw [List.all_cons, Bool.and_eq_true] at h
    rw [List.takeWhile_cons_of_pos h.1, ih h.2]

theorem dropWhile_all_eq {p : Char → Bool} :
    ∀ l : List Char, l.all p = true → l.dropWhile p = [] := by
  intro l
  induction l with
  | nil => intro _; rfl
  | cons c l ih =>
    intro h
    rw [List.all_cons, Bool.and_eq_true] at h
    rw [List.dropWhile_cons_of_pos h.1, ih h.2]

/-- The characters of each recognized unit suffix. -/
def unitChars : SizeUnit → List Char
  | .kb => ['k', 'b']
  | .mb => ['m', 'b']
  | .gb => ['g', 'b']

theorem unitOf_unitChars (u : SizeUnit) : unitOf (unitChars u) = some u := by
  cases u <;> rfl

theorem parseSizeCore_digits (l : List Char) (hne : l ≠ []) (hd : allDigits l = true) :
    parseSizeCore l = .ok (Nat.ofDigits 10 ((l.map fun c => c.toNat - 48).reverse)) := by
  have hie : l.isEmpty = false := by
    cases l
    · exact absurd rfl hne
    · rfl
  unfold parseSizeCore
  rw [if_pos (by rw [hie, hd]; rfl)]
  rw [decNat_eq_ofDigits]

theorem parseSizeCore_unit (l : List Char) (u : SizeUnit) (hne : l ≠ [])
    (hd : allDigits l = true) :
    parseSizeCore (l ++ unitChars u) =
      .ok (Nat.ofDigits 10 ((l.map fun c => c.toNat - 48).reverse) * multOf u) := by
  have hie : l.isEmpty = false := by
    cases l
    · exact absurd rfl hne
    · rfl
  have hall : allDigits (l ++ unitChars u) = false := by
    unfold allDigits
    rw [List.all_append,
      show (unitChars u).all Char.isDigit = false from by cases u <;> rfl]
    exact Bool.and_false _
  unfold parseSizeCore
  rw [if_neg (by rw [hall, Bool.and_false]; simp)]
  unfold sizeMatch
  have hlen : (l ++ unitChars u).length - 2 = l.length := by
    rw [List.length_append, show (unitChars u).length = 2 from by cases u <;> rfl]
    omega
  rw [List.splitAt_eq, hlen, List.take_left, List.drop_left]
  simp only []
  rw [unitOf_unitChars]
  have hnum : parseNumUnit l = some ((decNat l : ℚ)) := by
    unfold parseNumUnit
    rw [takeWhile_all_eq l hd, dropWhile_all_eq l hd]
    simp only []
    rw [if_neg (by rw [hie]; simp)]
  rw [hnum]
  simp only [Option.map_some']
  have hcast : ((decNat l : ℕ) : ℚ) * ((multOf u : ℕ) : ℚ) =
      ((decNat l * multOf u : ℕ) : ℚ) := by push_cast; ring
  rw [hcast, Int.floor_natCast, Int.toNat_natCast, decNat_eq_ofDigits]

/-- C8 counterexample: a zero byte target — the bare digit string "0" — is
accepted by the normalizer with output 0: not a positive integer, not "no
constraint" at the normalizer level, and not the configuration error the
claim requires for non-positive targets. -/
theorem parseSizeToBytes_zero_cex : parseSizeToBytes "0" = .ok 0 := rfl

/-- C8 amended: the Size-Target Normalizer maps a bare digit string
(including "0") to exactly its decimal value, multiplies a numeric value
with a kb/mb/gb suffix (case-insensitively) by 1024, 1024², 1024³ and
floors, and rejects every other form as a configuration error; its output
is a non-negative integer, and a zero output is not rejected — it is
treated downstream as "no constraint" (JavaScript falsy). -/
theorem parseSizeToBytes_spec :
    (∀ l : List Char, l ≠ [] → allDigits l = true →
      parseSizeCore l = .ok (Nat.ofDigits 10 ((l.map fun c => c.toNat - 48).reverse))) ∧
    (∀ (l : List Char) (u : SizeUnit), l ≠ [] → allDigits l = true →
      parseSizeCore (l ++ unitChars u) =
        .ok (Nat.ofDigits 10 ((l.map fun c => c.toNat - 48).reverse) * multOf u)) ∧
    parseSizeToBytes "600kb" = .ok 614400 ∧
    parseSizeToBytes "6MB" = .ok 6291456 ∧
    parseSizeToBytes "6gb" = .ok 6442450944 ∧
    parseSizeToBytes "5.5kb" = .ok 5632 ∧
    parseSizeToBytes "abc" = .error "Invalid --max-size" ∧
    parseSizeToBytes "1.5" = .error "Invalid --max-size" ∧
    parseSizeToBytes "" = .error "Invalid --max-size" ∧
    ((parseArgs ["--max-size", "0"]).map fun a => a.maxSizeBytes) = .ok (some 0) ∧
    jsFalsyN (some 0) = true := by
  refine ⟨parseSizeCore_digits, parseSizeCore_unit, ?_, ?_, ?_, ?_, rfl, rfl, rfl, rfl, rfl⟩
  · show parseSizeCore (jsToLower (jsTrim "600kb".data)) = .ok 614400
    rw [show jsToLower (jsTrim "600kb".data) = ['6', '0', '0'] ++ unitChars .kb from rfl,
      parseSizeCore_unit ['6', '0', '0'] .kb (by simp) (by decide)]
    decide
  · show parseSizeCore (jsToLower (jsTrim "6MB".data)) = .ok 6291456
    rw [show jsToLower (jsTrim "6MB".data) = ['6'] ++ unitChars .mb from rfl,
      parseSizeCore_unit ['6'] .mb (by simp) (by decide)]
    decide
  · show parseSizeCore (jsToLower (jsTrim "6gb".data)) = .ok 6442450944
    rw [show jsToLower (jsTrim "6gb".data) = ['6'] ++ unitChars .gb from rfl,
      parseSizeCore_unit ['6'] .gb (by simp) (by decide)]
    decide
  · show parseSizeCore (jsToLower (jsTrim "5.5kb".data)) = .ok 5632
    rw [show jsToLower (jsTrim "5.5kb".data) = ['5', '.', '5', 'k', 'b'] from rfl]
    unfold parseSizeCore
    rw [if_neg (by decide)]
    rw [show sizeMatch ['5', '.', '5', 'k', 'b'] =
        some (((5 : ℕ) : ℚ) + ((5 : ℕ) : ℚ) / 10 ^ (1 : ℕ), 1024) from rfl]
    simp only []
    have hc : ((((5 : ℕ) : ℚ) + ((5 : ℕ) : ℚ) / 10 ^ (1 : ℕ))) * ((1024 : ℕ) : ℚ) =
        ((5632 : ℕ) : ℚ) := by
      push_cast
      norm_num
    rw [hc, Int.floor_natCast, Int.toNat_natCast]

/-- Witness for the normalizer theorem on concrete digit and unit
inputs. -/
theorem parseSizeToBytes_spec_witness :
    parseSizeCore ['6', '0', '0'] =
        .ok (Nat.ofDigits 10 ((['6', '0', '0'].map fun c => c.toNat - 48).reverse)) ∧
      parseSizeCore (['6'] ++ unitChars .kb) =
        .ok (Nat.ofDigits 10 ((['6'].map fun c => c.toNat - 48).reverse) * multOf .kb) :=
  ⟨parseSizeToBytes_spec.1 ['6', '0', '0'] (by simp) (by decide),
   parseSizeToBytes_spec.2.1 ['6'] .kb (by simp) (by decide)⟩

/-- C9: no out-of-range fidelity ever reaches the encoder: for CLI
invocations whose arguments come from `parseArgs` (which clamps), every
call in the `compressWithTarget` trace has quality in [0.1, 1.0] — the
target path re-clamps and the binary-search midpoints stay inside the
clamped interval — and likewise every quality the browser
`encodeCanvasFitUnder` passes to its encoder. -/
theorem no_out_of_range_quality_reaches_encoder :
    (∀ (argv : List String) (args : Args), parseArgs argv = .ok args →
      ∀ (β : Type) (E : EncCall → β) (size : β → Nat),
      ∀ c ∈ (compressWithTarget E size args).2, 1 / 10 ≤ c.quality ∧ c.quality ≤ 1) ∧
    ∀ (γ : Type) (F : ℚ → γ) (sz : γ → Nat) (opts : FitOpts),
      ∀ x ∈ (encodeCanvasFitUnder F sz opts).2, 1 / 10 ≤ x ∧ x ≤ 1 := by
  constructor
  · intro argv args hargs β E size c hc
    by_cases hf : jsFalsyN args.maxSizeBytes = true
    · simp only [compressWithTarget] at hc
      rw [if_pos hf] at hc
      simp only [List.mem_singleton] at hc
      subst hc
      exact parseArgs_quality_bounds hargs
    · simp only [compressWithTarget] at hc
      rw [if_neg hf] at hc
      exact compressLoop_quality_mem E size args (args.maxSizeBytes.getD 0)
        (clampQ args.quality) (clampQ args.minQuality)
        (clampQ_bounds args.quality).1 (clampQ_bounds args.quality).2
        (clampQ_bounds args.minQuality).1 (clampQ_bounds args.minQuality).2
        variantsCLI none none c hc
  · intro γ F sz opts x hx
    simp only [encodeCanvasFitUnder] at hx
    by_cases hf : jsFalsyN opts.targetBytes = true
    · rw [if_pos hf] at hx
      simp only [List.mem_singleton] at hx
      subst hx
      exact clamp_bounds _
    · rw [if_neg hf] at hx
      by_cases hb : sz (F (clamp (opts.baseQuality.getD (85 / 100)) (1 / 10) 1)) ≤
          opts.targetBytes.getD 0
      · rw [if_pos hb] at hx
        simp only [List.mem_singleton] at hx
        subst hx
        exact clamp_bounds _
      · rw [if_neg hb] at hx
        by_cases hm : opts.targetBytes.getD 0 <
            sz (F (clamp (opts.minQuality.getD (55 / 100)) (1 / 10) 1))
        · rw [if_pos hm] at hx
          simp only [List.mem_cons, List.not_mem_nil, or_false] at hx
          rcases hx with hx | hx <;> (subst hx; exact clamp_bounds _)
        · rw [if_neg hm] at hx
          simp only [List.mem_append, List.mem_cons, List.not_mem_nil, or_false] at hx
          rcases hx with (hx | hx) | hx
          · subst hx; exact clamp_bounds _
          · subst hx; exact clamp_bounds _
          · exact fitSearch_quality_mem F sz (opts.targetBytes.getD 0) 10 _ _ _ _ 2
              (clamp_bounds _).1 (clamp_bounds _).2 (clamp_bounds _).1 (clamp_bounds _).2
              x hx

/-- Witness for the clamping theorem: the passthrough encode of a default
parse carries the clamped base fidelity, which is in range. -/
theorem no_out_of_range_quality_witness :
    1 / 10 ≤ (⟨clampQ (85 / 100), ⟨.s444, false, true⟩⟩ : EncCall).quality ∧
      (⟨clampQ (85 / 100), ⟨.s444, false, true⟩⟩ : EncCall).quality ≤ 1 :=
  no_out_of_range_quality_reaches_encoder.1 [] argsDefaultParsed rfl Nat stubEnc id
    ⟨clampQ (85 / 100), ⟨.s444, false, true⟩⟩ (List.mem_singleton.mpr rfl)

/-- C10: with a byte target configured, every encode attempt made by
`compressWithTarget` uses stripMetadata = true (every variant-table entry
hard-codes it), and the whole returned result and call trace are identical
regardless of the configured stripMetadata setting — that setting can
influence the output only in the no-target passthrough path. -/
theorem target_mode_ignores_stripMetadata {β : Type} (E : EncCall → β)
    (size : β → Nat) (args : Args) (ht : jsFalsyN args.maxSizeBytes = false) :
    (∀ c ∈ (compressWithTarget E size args).2, c.variant.stripMetadata = true) ∧
    ∀ b : Bool, compressWithTarget E size { args with stripMetadata := b } =
      compressWithTarget E size args := by
  constructor
  · intro c hc
    simp only [compressWithTarget] at hc
    rw [if_neg (by rw [ht]; exact Bool.false_ne_true)] at hc
    have hmem := compressLoop_variant_mem E size args (args.maxSizeBytes.getD 0)
      (clampQ args.quality) (clampQ args.minQuality) variantsCLI none none c hc
    have hall : ∀ v ∈ variantsCLI, v.stripMetadata = true := by decide
    exact hall _ hmem
  · intro b
    have ht' : jsFalsyN (Args.maxSizeBytes { args with stripMetadata := b }) = false := ht
    unfold compressWithTarget
    rw [if_neg (by rw [ht']; exact Bool.false_ne_true),
      if_neg (by rw [ht]; exact Bool.false_ne_true)]
    exact compressLoop_stripMetadata_irrel E size args b (args.maxSizeBytes.getD 0)
      (clampQ args.quality) (clampQ args.minQuality) variantsCLI none none

/-- Witness for the stripMetadata theorem at Scenario A: the base call of
the first variant strips metadata, and flipping the setting leaves the
whole Scenario A run unchanged. -/
theorem target_mode_ignores_stripMetadata_witness :
    ((⟨clampQ (85 / 100), ⟨.s444, false, true⟩⟩ : EncCall).variant.stripMetadata = true) ∧
      compressWithTarget stubEnc id { argsScenarioA with stripMetadata := false } =
        compressWithTarget stubEnc id argsScenarioA := by
  constructor
  · exact (target_mode_ignores_stripMetadata stubEnc id argsScenarioA rfl).1
      ⟨clampQ (85 / 100), ⟨.s444, false, true⟩⟩
      (compressLoop_base_call_mem stubEnc id argsScenarioA 600000 (clampQ (85 / 100))
        (clampQ (55 / 100)) ⟨.s444, false, true⟩
        [⟨.s444, true, true⟩, ⟨.s420, false, true⟩, ⟨.s420, true, true⟩] none none)
  · exact (target_mode_ignores_stripMetadata stubEnc id argsScenarioA rfl).2 false
